import Mathlib

/-! Verification of the goal-tree expert-system engine: three-valued logic
(`three_valued_logic.py`), the DAG store (`DAG.py`), and the goal-tree
evaluation pipeline (`goal_tree.py`).  Python's `None` truth value is
modelled as `none : Option Bool`; a Python `frozendict` of assertions is
modelled through its `get` view `String → Option Bool` (a key explicitly
mapped to `None` is indistinguishable from an absent key via `get`, which is
the only access the code performs). -/

/-- Three-valued truth: `some true`, `some false`, or `none` (unknown). -/
abbrev T3 := Option Bool

/-- `or3` from `three_valued_logic.py`: Python `any(ls)` is truthy only on
`True`; `all(i == False for i in ls)` counts only `False` (not `None`). -/
def or3 (ls : List T3) : T3 :=
  if ls.any (fun v => v = some true) then some true
  else if ls.all (fun v => v = some false) then some false
  else none

/-- `and3` from `three_valued_logic.py`: `any(v == False for v in ls)` then
`all(i for i in ls)` (truthy only on `True`). -/
def and3 (ls : List T3) : T3 :=
  if ls.any (fun v => v = some false) then some false
  else if ls.all (fun v => v = some true) then some true
  else none

/-- Multiset variant of `or3`; `or3` only inspects membership, so the two
agree on any list (see `or3M_coe`). -/
def or3M (m : Multiset T3) : T3 :=
  if some true ∈ m then some true
  else if ∀ x ∈ m, x = some false then some false
  else none

/-- Multiset variant of `and3`. -/
def and3M (m : Multiset T3) : T3 :=
  if some false ∈ m then some false
  else if ∀ x ∈ m, x = some true then some true
  else none

/-- Kleene disjunction as the spec words it: true if any value is true, else
unknown if any value is unknown, else false. -/
def kleeneOr (a b : T3) : T3 :=
  if a = some true ∨ b = some true then some true
  else if a = none ∨ b = none then none
  else some false

/-- Kleene conjunction as the spec words it: false if any value is false,
else unknown if any value is unknown, else true. -/
def kleeneAnd (a b : T3) : T3 :=
  if a = some false ∨ b = some false then some false
  else if a = none ∨ b = none then none
  else some true

/-- Goal-tree nodes (`GoalTreeNode` hierarchy of `goal_tree.py`): fact nodes
and and-nodes, value objects whose equality includes the `truth` and `pruned`
attributes. -/
inductive GTNode where
  | factNode (fact : String) (truth : T3) (pruned : Bool)
  | andNode (parentFact : String) (andId : Nat) (truth : T3) (pruned : Bool)
deriving DecidableEq, Repr

/-- The identity part of a node (kind plus identifying fields), without the
`truth`/`pruned` attributes. -/
inductive Ident where
  | factI (fact : String)
  | andI (parentFact : String) (andId : Nat)
deriving DecidableEq, Repr

def GTNode.truth : GTNode → T3
  | .factNode _ t _ => t
  | .andNode _ _ t _ => t

def GTNode.pruned : GTNode → Bool
  | .factNode _ _ p => p
  | .andNode _ _ _ p => p

def GTNode.ident : GTNode → Ident
  | .factNode f _ _ => .factI f
  | .andNode pf i _ _ => .andI pf i

/-- `true` exactly on `FactNode`s. -/
def GTNode.isFact : GTNode → Bool
  | .factNode _ _ _ => true
  | .andNode _ _ _ _ => false

/-- The `.fact` attribute of a fact node (junk on and-nodes, where the
Python code would fail an `isinstance` assertion). -/
def GTNode.factOf : GTNode → String
  | .factNode f _ _ => f
  | .andNode pf _ _ _ => pf

/-- Rebuild a node with a new truth value and a default (`false`) pruned
flag, as `FactNode(fact, truth=truth)` / `AndNode(pf, i, truth=truth)` do. -/
def GTNode.withTruth : GTNode → T3 → GTNode
  | .factNode f _ _, t => .factNode f t false
  | .andNode pf i _ _, t => .andNode pf i t false

/-- Rebuild a node with a new pruned flag, keeping its truth, as
`replace(node, pruned=pruned)` does. -/
def GTNode.withPruned : GTNode → Bool → GTNode
  | .factNode f t _, p => .factNode f t p
  | .andNode pf i t _, p => .andNode pf i t p

/-- The assertion-override of `update_truth`: the asserted value when the
fact is present in the assertion map, otherwise the inferred value. -/
def assertedOr (a : T3) (x : T3) : T3 :=
  match a with
  | some b => some b
  | none => x

/-- The DAG of `DAG.py`: a vertex set and a directed edge set. -/
@[ext] structure DAG where
  verts : Finset GTNode
  edges : Finset (GTNode × GTNode)
deriving DecidableEq

/-- `DAG.successors`. -/
def DAG.succ (d : DAG) (v : GTNode) : Finset GTNode :=
  (d.edges.filter (fun e => e.1 = v)).image Prod.snd

/-- `DAG.predecessors`. -/
def DAG.pred (d : DAG) (v : GTNode) : Finset GTNode :=
  (d.edges.filter (fun e => e.2 = v)).image Prod.fst

def DAG.outdegree (d : DAG) (v : GTNode) : Nat := (d.succ v).card

def DAG.indegree (d : DAG) (v : GTNode) : Nat := (d.pred v).card

/-- `DAG.all_starts`: the indegree-0 (root) vertices. -/
def DAG.allStarts (d : DAG) : Finset GTNode :=
  d.verts.filter (fun v => d.pred v = ∅)

/-- `DAG.all_terminals`: the outdegree-0 (leaf) vertices. -/
def DAG.allTerminals (d : DAG) : Finset GTNode :=
  d.verts.filter (fun v => d.succ v = ∅)

/-- Depth-bounded reachability, modelling `DAG.__has_path_to` (whose
recursion depth is bounded by the vertex count on acyclic graphs). -/
def DAG.hasPathTo (d : DAG) : Nat → GTNode → GTNode → Bool
  | 0, a, b => decide (a = b)
  | n + 1, a, b =>
    decide (a = b) || decide (∃ c ∈ d.succ a, d.hasPathTo n c b = true)

/-- The vertices reachable from some root, i.e. the set of nodes visited by
`update_truth`'s `for root in dag.all_starts(): add_node(root)` traversal. -/
def DAG.reachable (d : DAG) : Finset GTNode :=
  d.verts.filter (fun v => ∃ r ∈ d.allStarts, d.hasPathTo d.verts.card r v = true)

/-- The vertices from which some terminal is reachable, i.e. the set of
nodes visited by `update_pruned`'s traversal from `all_terminals`. -/
def DAG.coreachable (d : DAG) : Finset GTNode :=
  d.verts.filter (fun v => ∃ t ∈ d.allTerminals, d.hasPathTo d.verts.card v t = true)

/-- Well-formedness of a goal-tree DAG: edges stay inside the vertex set, at
most one vertex per identity (one `FactNode` per fact, one `AndNode` per
(fact, ordinal)), and a topological rank witnessing acyclicity, bounded by
the vertex count. -/
@[reducible] def WF (d : DAG) (rank : Ident → Nat) : Prop :=
  (∀ e ∈ d.edges, e.1 ∈ d.verts ∧ e.2 ∈ d.verts) ∧
  (∀ v ∈ d.verts, ∀ w ∈ d.verts, v.ident = w.ident → v = w) ∧
  (∀ e ∈ d.edges, rank e.2.ident < rank e.1.ident) ∧
  (∀ v ∈ d.verts, rank v.ident < d.verts.card)

/-- The identity skeleton of a DAG: its vertices and edges with the
`truth`/`pruned` attributes stripped. -/
def skel (d : DAG) : Finset Ident × Finset (Ident × Ident) :=
  (d.verts.image GTNode.ident,
   d.edges.image (fun e => (e.1.ident, e.2.ident)))

/-- The identity-and-truth skeleton: vertices and edges with only the
`pruned` attribute stripped. -/
def skelT (d : DAG) : Finset (Ident × T3) × Finset ((Ident × T3) × (Ident × T3)) :=
  (d.verts.image (fun v => (v.ident, v.truth)),
   d.edges.image (fun e => ((e.1.ident, e.1.truth), (e.2.ident, e.2.truth))))

/-- Structural DAG equality as implemented by `DAG.__eq__`: equal root sets,
and equal successor sets at every vertex reachable from the roots. -/
def structEq (d1 d2 : DAG) : Prop :=
  d1.allStarts = d2.allStarts ∧ ∀ v ∈ d1.reachable, d1.succ v = d2.succ v

/-- The truth value computed for a node by `update_truth.add_node`: a leaf
fact node reads the assertion for its fact, a non-leaf fact node takes the
assertion if present and otherwise `or3` of the recomputed children, an
and-node takes `and3` of the recomputed children.  The recursion over the
acyclic graph is fuel-bounded; `truthFuel_stable` shows any fuel above the
node's topological rank gives the same value.  (On an and-node leaf the
Python code fails an assertion; such nodes never occur in goal-tree DAGs.) -/
def truthFuel (d : DAG) (A : String → T3) : Nat → GTNode → T3
  | 0, _ => none
  | n + 1, v =>
    if d.succ v = ∅ then
      if v.isFact then A v.factOf else none
    else if v.isFact then
      assertedOr (A v.factOf) (or3M ((d.succ v).val.map (truthFuel d A n)))
    else
      and3M ((d.succ v).val.map (truthFuel d A n))

/-- The stabilised truth of a node under `update_truth(d, A)`; the fuel
`d.verts.card` exceeds every topological rank of a well-formed DAG. -/
def truthAt (d : DAG) (A : String → T3) (v : GTNode) : T3 :=
  truthFuel d A d.verts.card v

/-- `update_truth(dag, assertions)`: rebuild the part of the DAG reachable
from the roots, each node rebuilt with its recomputed truth value (and a
default `pruned = false`), each traversed edge rebuilt between the new
endpoint nodes. -/
def updateTruth (d : DAG) (A : String → T3) : DAG :=
  { verts := d.reachable.image (fun v => v.withTruth (truthAt d A v)),
    edges := (d.edges.filter (fun e => e.1 ∈ d.reachable)).image
      (fun e => (e.1.withTruth (truthAt d A e.1), e.2.withTruth (truthAt d A e.2))) }

/-- The pruned flag computed for a node by `update_pruned.add_node`: a root
keeps its flag (the node is returned as-is), any other node is pruned iff
its own truth is unknown and every parent has a known truth or is itself
pruned.  Fuel-bounded like `truthFuel`. -/
def prunedFuel (d : DAG) : Nat → GTNode → Bool
  | 0, v => v.pruned
  | n + 1, v =>
    if d.pred v = ∅ then v.pruned
    else
      decide (v.truth = none) &&
        decide (∀ p ∈ d.pred v, p.truth ≠ none ∨ prunedFuel d n p = true)

/-- The stabilised pruned flag under `update_pruned(d)`. -/
def prunedAt (d : DAG) (v : GTNode) : Bool := prunedFuel d d.verts.card v

/-- `update_pruned(dag)`: rebuild the part of the DAG that reaches some
terminal, each node rebuilt with its recomputed pruned flag (truth kept),
each traversed edge rebuilt between the new endpoint nodes. -/
def updatePruned (d : DAG) : DAG :=
  { verts := d.coreachable.image (fun v => v.withPruned (prunedAt d v)),
    edges := (d.edges.filter (fun e => e.2 ∈ d.coreachable)).image
      (fun e => (e.1.withPruned (prunedAt d e.1), e.2.withPruned (prunedAt d e.2))) }

/-- `dag_truths(dag).get(f)`: the truth recorded for fact `f` by the fact
node of the DAG carrying it (`none` when no fact node for `f` exists). -/
def factTruth (d : DAG) (f : String) : T3 :=
  if ∃ v ∈ d.verts, v.ident = Ident.factI f ∧ v.truth = some true then some true
  else if ∃ v ∈ d.verts, v.ident = Ident.factI f ∧ v.truth = some false then some false
  else none

/-- The facts forced to false in one pass of `update_truth_with_groups`:
for every exclusive group holding a true member, all its other members. -/
def excludedFacts (groups : List (Finset String)) (tr : String → T3) : Finset String :=
  groups.foldr
    (fun g acc =>
      if ∃ f ∈ g, tr f = some true then
        g.filter (fun f => tr f ≠ some true) ∪ acc
      else acc) ∅

/-- The loop of `update_truth_with_groups`: re-evaluate, raise when a group
has two true members, stop when no group forces anything new, otherwise
merge the forced-false facts into the assertions and iterate. -/
def utwgGo (d : DAG) (groups : List (Finset String)) :
    Nat → (String → T3) → Except String DAG
  | 0, _ => .error "fuel exhausted"
  | n + 1, A =>
    if ∃ g ∈ groups,
        2 ≤ (g.filter (fun f => factTruth (updateTruth d A) f = some true)).card then
      .error "Only one fact from each exclusive group can be true."
    else if excludedFacts groups (factTruth (updateTruth d A)) = ∅ then
      .ok (updateTruth d A)
    else if ∀ f ∈ excludedFacts groups (factTruth (updateTruth d A)),
        factTruth (updateTruth d A) f = some false then
      .ok (updateTruth d A)
    else
      utwgGo d groups n
        (fun f =>
          if f ∈ excludedFacts groups (factTruth (updateTruth d A)) then some false
          else factTruth (updateTruth d A) f)

/-- `update_truth_with_groups(dag, assertions, exclusive_groups)`.  The loop
adds a forced-false fact per effective iteration, so `d.verts.card + 2`
iterations suffice for any goal-tree DAG. -/
def updateTruthWithGroups (d : DAG) (A : String → T3)
    (groups : List (Finset String)) : Except String DAG :=
  utwgGo d groups (d.verts.card + 2) A

/-- Combine for extracting the least fact string of a multiset (left
commutative, so it lifts to multisets). -/
def minOptStr (x : String) (acc : Option String) : Option String :=
  match acc with
  | none => some x
  | some y => some (min x y)

instance : LeftCommutative minOptStr :=
  ⟨fun a b acc => by
    cases acc with
    | none => simp [minOptStr, min_comm]
    | some y => simp [minOptStr, min_left_comm]⟩

/-- Extract the fact string of the element of a (singleton) root set, as
`true[0]` / `unknown[0]` do. -/
def theFact (s : Finset GTNode) : Option String :=
  Multiset.foldr minOptStr none (s.val.map GTNode.factOf)

/-- `solution(dag)` from `goal_tree.py` (both error branches reuse the same
message string, as in the source). -/
def solution (d : DAG) : Except String (Option String) :=
  if (d.allStarts.filter (fun v => v.truth = some true)).card = 1 then
    .ok (theFact (d.allStarts.filter (fun v => v.truth = some true)))
  else if 1 < (d.allStarts.filter (fun v => v.truth = some true)).card then
    .error "More than one hypothesis are true."
  else if (d.allStarts.filter (fun v => v.truth = some false)).card = d.allStarts.card then
    .error "More than one hypothesis are true."
  else if (d.allStarts.filter (fun v => v.truth = none)).card = 1 then
    .ok (theFact (d.allStarts.filter (fun v => v.truth = none)))
  else .ok none

/-- The loop body of `DAG.add_edge`: each target is cycle-checked against
the current (already partially extended) graph, then its edge is inserted;
the state at the moment of a failure is returned alongside the error. -/
def addEdgeGo (vf : GTNode) : DAG → List GTNode → Option String × DAG
  | d, [] => (none, d)
  | d, vt :: rest =>
    if d.hasPathTo d.verts.card vt vf then
      (some "Cycle if add edge", d)
    else addEdgeGo vf { verts := d.verts, edges := insert (vf, vt) d.edges } rest

/-- `DAG.add_edge(v_from, *v_tos)`: `__validate_vertex` all endpoints (fail
with no mutation when one is missing), then add the edges one at a time with
a cycle check before each. -/
def addEdge (d : DAG) (vf : GTNode) (vtos : List GTNode) : Option String × DAG :=
  if vf ∈ d.verts ∧ ∀ v ∈ vtos, v ∈ d.verts then addEdgeGo vf d vtos
  else (some "Vertex does not belong to DAG", d)

/-- `DAG.remove_edge(v_from, v_to)`: `__validate_vertex` the endpoints,
require the edge to exist, then remove it. -/
def removeEdge (d : DAG) (vf vt : GTNode) : Option String × DAG :=
  if vf ∈ d.verts ∧ vt ∈ d.verts then
    if vt ∈ d.succ vf then
      (none, { verts := d.verts, edges := d.edges.erase (vf, vt) })
    else (some "Edge not found", d)
  else (some "Vertex does not belong to DAG", d)

/-- The unique element of a singleton `Finset String`, as
`next(and_set.__iter__())` extracts it. -/
def theOnly (s : Finset String) : Option String :=
  Multiset.foldr minOptStr none s.val

/-- Step 1 of `construct_dag`: a fact vertex for every rule key and every
fact mentioned in any and-set. -/
def rulesVerts (rules : List (String × List (Finset String))) : Finset GTNode :=
  rules.foldl
    (fun acc p =>
      p.2.foldl
        (fun acc2 aset => acc2 ∪ aset.image (fun c => GTNode.factNode c none false))
        (insert (GTNode.factNode p.1 none false) acc)) ∅

/-- Step 2 of `construct_dag` for one fact: a direct edge for a singleton
and-set, otherwise an and-node (tagged with the and-set's ordinal) wired
between the fact and the and-set members.  (The Python cycle check raises on
cyclic rule tables; well-formedness hypotheses restrict the claims to the
acyclic tables the check admits.) -/
def addRuleEdges (fact : String) : DAG → List (Nat × Finset String) → DAG
  | d, [] => d
  | d, (i, aset) :: rest =>
    if aset.card = 1 then
      match theOnly aset with
      | some c =>
        addRuleEdges fact
          { verts := d.verts,
            edges := insert (GTNode.factNode fact none false,
                             GTNode.factNode c none false) d.edges } rest
      | none => addRuleEdges fact d rest
    else
      addRuleEdges fact
        { verts := insert (GTNode.andNode fact i none false) d.verts,
          edges := insert (GTNode.factNode fact none false,
                           GTNode.andNode fact i none false)
            (d.edges ∪ aset.image
              (fun c => (GTNode.andNode fact i none false,
                         GTNode.factNode c none false))) } rest

/-- `construct_dag(rules)`. -/
def constructDag (rules : List (String × List (Finset String))) : DAG :=
  rules.foldl (fun d p => addRuleEdges p.1 d p.2.enum)
    { verts := rulesVerts rules, edges := ∅ }

/-- Lookup in an assertion list (the `get` view of a `frozendict`). -/
def agetB (A : List (String × Bool)) (f : String) : Option Bool :=
  (A.find? (fun q => decide (q.1 = f))).map (fun q => q.2)

/-- Right-biased dictionary merge lookup: `old | new` followed by `get`. -/
def mergedGet (m old : List (String × Bool)) (f : String) : Option Bool :=
  match agetB m f with
  | some b => some b
  | none => agetB old f

/-- The `GoalTree` snapshot: rule table, exclusive groups, assertions, and
the evaluated DAG produced by `__post_init__` (with `check_guaranteed`
false, its default). -/
structure GoalTree where
  rules : List (String × List (Finset String))
  exclusiveGroups : List (Finset String)
  assertions : List (String × Bool)
  dag : DAG
deriving DecidableEq

/-- `GoalTree.__post_init__`: build the skeleton with `construct_dag` unless
a DAG is supplied, then `update_pruned(update_truth_with_groups(...))`. -/
def mkGoalTree (rules : List (String × List (Finset String)))
    (groups : List (Finset String)) (asserts : List (String × Bool))
    (dag0 : Option DAG) : Except String GoalTree :=
  match updateTruthWithGroups (dag0.getD (constructDag rules))
      (agetB asserts) groups with
  | .error e => .error e
  | .ok d => .ok ⟨rules, groups, asserts, updatePruned d⟩

/-- `GoalTree.set(new_assertions)`: a new snapshot from the merged
assertions (new values win), reusing the evaluated DAG as the skeleton. -/
def GoalTree.set (gt : GoalTree) (m : List (String × Bool)) :
    Except String GoalTree :=
  mkGoalTree gt.rules gt.exclusiveGroups (m ++ gt.assertions) (some gt.dag)

/-- The pruning rule exactly as the claim words it: every non-root node is
pruned iff each of its parents has a known truth or is itself pruned, the
node's own truth playing no role. -/
@[reducible] def claimPrunedPred (d : DAG) : Prop :=
  ∀ v ∈ d.verts, d.pred v ≠ ∅ →
    (prunedAt d v = true ↔ ∀ p ∈ d.pred v, p.truth ≠ none ∨ prunedAt d p = true)

def nAx : GTNode := .factNode "A" none false

def nAndx : GTNode := .andNode "A" 0 none false

def nBx : GTNode := .factNode "B" none false

def nCx : GTNode := .factNode "C" none false

/-- Example DAG: fact `A` with the single and-set `{B, C}`. -/
def dEx1 : DAG :=
  ⟨{nAx, nAndx, nBx, nCx}, {(nAx, nAndx), (nAndx, nBx), (nAndx, nCx)}⟩

def rankEx1 : Ident → Nat := fun i =>
  match i with
  | .factI "A" => 2
  | .andI _ _ => 1
  | _ => 0

def AEx1 : String → T3 := fun f => if f = "B" then some true else none

def caEx2 : GTNode := .factNode "a" (some true) false

def cbEx2 : GTNode := .factNode "b" (some true) false

/-- Example DAG: edge `a → b`, both truths known. -/
def dEx2 : DAG := ⟨{caEx2, cbEx2}, {(caEx2, cbEx2)}⟩

def rankEx2 : Ident → Nat := fun i =>
  match i with
  | .factI "a" => 1
  | _ => 0

def aEx6 : GTNode := .factNode "x" none false

def bEx6 : GTNode := .factNode "y" none false

/-- Example DAG with two isolated vertices for the edge-operation claims. -/
def dEx6 : DAG := ⟨{aEx6, bEx6}, ∅⟩

def rEx4a : GTNode := .factNode "R1" (some true) false

def rEx4b : GTNode := .factNode "R2" (some false) false

/-- Example DAG with two root hypotheses, one true and one false. -/
def dEx4 : DAG := ⟨{rEx4a, rEx4b}, ∅⟩

/-- The exclusive-group scenario's rules:
`F ← (A ∧ B ∧ C) ∨ D`, `A ← S`. -/
def rulesEx3 : List (String × List (Finset String)) :=
  [("F", [{"A", "B", "C"}, {"D"}]), ("A", [{"S"}])]

def groupsEx3 : List (Finset String) := [{"A", "B", "C"}]

def AEx3 : String → T3 := fun f => if f = "S" then some true else none

/-- The fixpoint DAG of the exclusive-group scenario. -/
def dRes3 : DAG :=
  (updateTruthWithGroups (constructDag rulesEx3) AEx3 groupsEx3).toOption.getD ⟨∅, ∅⟩

/-- Example with two facts asserted true inside one exclusive group. -/
def dEx5 : DAG := ⟨{.factNode "a" none false, .factNode "b" none false}, ∅⟩

def AEx5 : String → T3 := fun f => if f = "a" ∨ f = "b" then some true else none

def groupsEx5 : List (Finset String) := [{"a", "b"}]

def rulesEx9 : List (String × List (Finset String)) := [("A", [{"B"}])]

def rankEx9 : Ident → Nat := fun i =>
  match i with
  | .factI "A" => 1
  | _ => 0

def emptyGT : GoalTree := ⟨[], [], [], ⟨∅, ∅⟩⟩

/-- A `GoalTree` snapshot over `rulesEx9` with no assertions. -/
def gtEx9 : GoalTree := (mkGoalTree rulesEx9 [] [] none).toOption.getD emptyGT

def mEx9 : List (String × Bool) := [("B", true)]

/-- The snapshot after `gtEx9.set(mEx9)`. -/
def gtEx9b : GoalTree := (gtEx9.set mEx9).toOption.getD emptyGT

theorem or3M_coe (l : List T3) : or3M ↑l = or3 l := by
  simp [or3M, or3, List.any_eq_true, List.all_eq_true, Multiset.mem_coe]

theorem and3M_coe (l : List T3) : and3M ↑l = and3 l := by
  simp [and3M, and3, List.any_eq_true, List.all_eq_true, Multiset.mem_coe]

theorem or3M_congr {m1 m2 : Multiset T3} (h : ∀ x, x ∈ m1 ↔ x ∈ m2) :
    or3M m1 = or3M m2 := by
  unfold or3M
  have h2 : (∀ x ∈ m1, x = some false) ↔ (∀ x ∈ m2, x = some false) :=
    ⟨fun hx x hxm => hx x ((h x).mpr hxm), fun hx x hxm => hx x ((h x).mp hxm)⟩
  exact if_congr (h (some true)) rfl (if_congr h2 rfl rfl)

theorem and3M_congr {m1 m2 : Multiset T3} (h : ∀ x, x ∈ m1 ↔ x ∈ m2) :
    and3M m1 = and3M m2 := by
  unfold and3M
  have h2 : (∀ x ∈ m1, x = some true) ↔ (∀ x ∈ m2, x = some true) :=
    ⟨fun hx x hxm => hx x ((h x).mpr hxm), fun hx x hxm => hx x ((h x).mp hxm)⟩
  exact if_congr (h (some false)) rfl (if_congr h2 rfl rfl)

@[simp] theorem GTNode.ident_withTruth (v : GTNode) (t : T3) :
    (v.withTruth t).ident = v.ident := by cases v <;> rfl

@[simp] theorem GTNode.truth_withTruth (v : GTNode) (t : T3) :
    (v.withTruth t).truth = t := by cases v <;> rfl

@[simp] theorem GTNode.ident_withPruned (v : GTNode) (p : Bool) :
    (v.withPruned p).ident = v.ident := by cases v <;> rfl

@[simp] theorem GTNode.truth_withPruned (v : GTNode) (p : Bool) :
    (v.withPruned p).truth = v.truth := by cases v <;> rfl

@[simp] theorem GTNode.pruned_withPruned (v : GTNode) (p : Bool) :
    (v.withPruned p).pruned = p := by cases v <;> rfl

theorem GTNode.withTruth_withTruth (v : GTNode) (t t' : T3) :
    ((v.withTruth t).withTruth t') = v.withTruth t' := by cases v <;> rfl

theorem GTNode.withPruned_self (v : GTNode) : v.withPruned v.pruned = v := by
  cases v <;> rfl

/-- A rebuilt node is determined by identity and new truth alone. -/
theorem GTNode.withTruth_eq_of_ident (v w : GTNode) (t : T3)
    (h : v.ident = w.ident) : v.withTruth t = w.withTruth t := by
  cases v <;> cases w <;> simp [GTNode.ident] at h <;> simp [GTNode.withTruth]
  · exact h
  · exact ⟨h.1, h.2⟩

theorem GTNode.withPruned_eq_of_ident (v w : GTNode) (p : Bool)
    (hi : v.ident = w.ident) (ht : v.truth = w.truth) :
    v.withPruned p = w.withPruned p := by
  cases v <;> cases w <;> simp [GTNode.ident] at hi <;>
    simp [GTNode.truth] at ht <;> simp [GTNode.withPruned]
  · exact ⟨hi, ht⟩
  · exact ⟨hi.1, hi.2, ht⟩

theorem GTNode.isFact_factOf_of_ident {v w : GTNode} (h : v.ident = w.ident) :
    v.isFact = w.isFact ∧ v.factOf = w.factOf := by
  cases v <;> cases w <;> simp [GTNode.ident] at h <;>
    simp [GTNode.isFact, GTNode.factOf]
  · exact h
  · exact h.1

@[simp] theorem assertedOr_some (b : Bool) (x : T3) :
    assertedOr (some b) x = some b := rfl

@[simp] theorem assertedOr_none (x : T3) : assertedOr none x = x := rfl

theorem DAG.mem_succ {d : DAG} {v c : GTNode} :
    c ∈ d.succ v ↔ (v, c) ∈ d.edges := by
  constructor
  · intro h
    rcases Finset.mem_image.mp h with ⟨e, he, hec⟩
    rcases Finset.mem_filter.mp he with ⟨hee, he1⟩
    have : e = (v, c) := Prod.ext he1 hec
    exact this ▸ hee
  · intro h
    exact Finset.mem_image.mpr ⟨(v, c), Finset.mem_filter.mpr ⟨h, rfl⟩, rfl⟩

theorem DAG.mem_pred {d : DAG} {v p : GTNode} :
    p ∈ d.pred v ↔ (p, v) ∈ d.edges := by
  constructor
  · intro h
    rcases Finset.mem_image.mp h with ⟨e, he, hec⟩
    rcases Finset.mem_filter.mp he with ⟨hee, he1⟩
    have : e = (p, v) := Prod.ext hec he1
    exact this ▸ hee
  · intro h
    exact Finset.mem_image.mpr ⟨(p, v), Finset.mem_filter.mpr ⟨h, rfl⟩, rfl⟩

theorem DAG.hasPathTo_zero_iff (d : DAG) (a b : GTNode) :
    d.hasPathTo 0 a b = true ↔ a = b := by
  show decide (a = b) = true ↔ a = b
  simp

theorem DAG.hasPathTo_succ_iff (d : DAG) (n : Nat) (a b : GTNode) :
    d.hasPathTo (n + 1) a b = true ↔
      a = b ∨ ∃ c ∈ d.succ a, d.hasPathTo n c b = true := by
  show (decide (a = b) || decide (∃ c ∈ d.succ a, d.hasPathTo n c b = true))
      = true ↔ _
  simp

theorem DAG.hasPathTo_refl (d : DAG) (n : Nat) (a : GTNode) :
    d.hasPathTo n a a = true := by
  cases n with
  | zero => exact (d.hasPathTo_zero_iff a a).mpr rfl
  | succ n => exact (d.hasPathTo_succ_iff n a a).mpr (Or.inl rfl)

theorem DAG.hasPathTo_succ_of (d : DAG) {n : Nat} {a b : GTNode}
    (h : d.hasPathTo n a b = true) : d.hasPathTo (n + 1) a b = true := by
  induction n generalizing a b with
  | zero =>
    exact (d.hasPathTo_succ_iff 0 a b).mpr (Or.inl ((d.hasPathTo_zero_iff a b).mp h))
  | succ n ih =>
    rcases (d.hasPathTo_succ_iff n a b).mp h with h | ⟨c, hc, hp⟩
    · exact (d.hasPathTo_succ_iff (n + 1) a b).mpr (Or.inl h)
    · exact (d.hasPathTo_succ_iff (n + 1) a b).mpr (Or.inr ⟨c, hc, ih hp⟩)

theorem DAG.hasPathTo_mono (d : DAG) {n m : Nat} (hnm : n ≤ m) {a b : GTNode}
    (h : d.hasPathTo n a b = true) : d.hasPathTo m a b = true := by
  induction m with
  | zero => exact (Nat.le_zero.mp hnm) ▸ h
  | succ m ih =>
    rcases Nat.lt_or_ge n (m + 1) with hlt | hge
    · exact d.hasPathTo_succ_of (ih (Nat.lt_succ_iff.mp hlt))
    · exact (Nat.le_antisymm hnm hge) ▸ h

/-- Append one edge at the end of a path. -/
theorem DAG.hasPathTo_step (d : DAG) {n : Nat} {a b c : GTNode}
    (h : d.hasPathTo n a b = true) (he : (b, c) ∈ d.edges) :
    d.hasPathTo (n + 1) a c = true := by
  induction n generalizing a b with
  | zero =>
    have hab := (d.hasPathTo_zero_iff a b).mp h
    subst hab
    exact (d.hasPathTo_succ_iff 0 a c).mpr
      (Or.inr ⟨c, DAG.mem_succ.mpr he, d.hasPathTo_refl 0 c⟩)
  | succ n ih =>
    rcases (d.hasPathTo_succ_iff n a b).mp h with hab | ⟨c', hc', hp⟩
    · subst hab
      exact (d.hasPathTo_succ_iff (n + 1) a c).mpr
        (Or.inr ⟨c, DAG.mem_succ.mpr he,
          d.hasPathTo_mono (Nat.zero_le (n + 1)) (d.hasPathTo_refl 0 c)⟩)
    · exact (d.hasPathTo_succ_iff (n + 1) a c).mpr (Or.inr ⟨c', hc', ih hp he⟩)

theorem WF.mem_reachable {d : DAG} {rank : Ident → Nat} (h : WF d rank) :
    ∀ v ∈ d.verts, v ∈ d.reachable := by
  suffices H : ∀ k, ∀ v ∈ d.verts, d.verts.card - rank v.ident = k →
      ∃ r ∈ d.allStarts, ∃ n, d.hasPathTo n r v = true ∧
        n < (d.verts.filter (fun w => rank v.ident ≤ rank w.ident)).card by
    intro v hv
    rcases H _ v hv rfl with ⟨r, hr, n, hp, hn⟩
    refine Finset.mem_filter.mpr ⟨hv, ⟨r, hr, ?_⟩⟩
    exact d.hasPathTo_mono
      (Nat.le_of_lt (lt_of_lt_of_le hn (Finset.card_filter_le _ _))) hp
  intro k
  induction k using Nat.strong_induction_on with
  | _ k ih =>
    intro v hv hk
    by_cases hroot : d.pred v = ∅
    · refine ⟨v, Finset.mem_filter.mpr ⟨hv, hroot⟩, 0, d.hasPathTo_refl 0 v, ?_⟩
      exact Finset.card_pos.mpr ⟨v, Finset.mem_filter.mpr ⟨hv, le_refl _⟩⟩
    · rcases Finset.nonempty_iff_ne_empty.mpr hroot with ⟨p, hp⟩
      have hpe : (p, v) ∈ d.edges := DAG.mem_pred.mp hp
      have hpv : p ∈ d.verts := (h.1 _ hpe).1
      have hrlt : rank v.ident < rank p.ident := h.2.2.1 _ hpe
      have hpb : rank p.ident < d.verts.card := h.2.2.2 _ hpv
      have hvb : rank v.ident < d.verts.card := h.2.2.2 _ hv
      have hm : d.verts.card - rank p.ident < k := by omega
      rcases ih _ hm p hpv rfl with ⟨r, hr, n, hpath, hn⟩
      refine ⟨r, hr, n + 1, d.hasPathTo_step hpath hpe, ?_⟩
      have hvnot : v ∉ d.verts.filter (fun w => rank p.ident ≤ rank w.ident) := by
        intro hmem
        have := (Finset.mem_filter.mp hmem).2
        omega
      have hins : insert v (d.verts.filter (fun w => rank p.ident ≤ rank w.ident))
          ⊆ d.verts.filter (fun w => rank v.ident ≤ rank w.ident) := by
        intro x hx
        rcases Finset.mem_insert.mp hx with rfl | hx
        · exact Finset.mem_filter.mpr ⟨hv, le_refl _⟩
        · have hx' := Finset.mem_filter.mp hx
          exact Finset.mem_filter.mpr ⟨hx'.1, le_trans (le_of_lt hrlt) hx'.2⟩
      have hcard := Finset.card_le_card hins
      rw [Finset.card_insert_of_not_mem hvnot] at hcard
      omega

theorem WF.mem_coreachable {d : DAG} {rank : Ident → Nat} (h : WF d rank) :
    ∀ v ∈ d.verts, v ∈ d.coreachable := by
  suffices H : ∀ k, ∀ v ∈ d.verts, rank v.ident = k →
      ∃ t ∈ d.allTerminals, ∃ n, d.hasPathTo n v t = true ∧
        n < (d.verts.filter (fun w => rank w.ident ≤ rank v.ident)).card by
    intro v hv
    rcases H _ v hv rfl with ⟨t, ht, n, hp, hn⟩
    refine Finset.mem_filter.mpr ⟨hv, ⟨t, ht, ?_⟩⟩
    exact d.hasPathTo_mono
      (Nat.le_of_lt (lt_of_lt_of_le hn (Finset.card_filter_le _ _))) hp
  intro k
  induction k using Nat.strong_induction_on with
  | _ k ih =>
    intro v hv hk
    by_cases hterm : d.succ v = ∅
    · refine ⟨v, Finset.mem_filter.mpr ⟨hv, hterm⟩, 0, d.hasPathTo_refl 0 v, ?_⟩
      exact Finset.card_pos.mpr ⟨v, Finset.mem_filter.mpr ⟨hv, le_refl _⟩⟩
    · rcases Finset.nonempty_iff_ne_empty.mpr hterm with ⟨c, hc⟩
      have hce : (v, c) ∈ d.edges := DAG.mem_succ.mp hc
      have hcv : c ∈ d.verts := (h.1 _ hce).2
      have hrlt : rank c.ident < rank v.ident := h.2.2.1 _ hce
      rcases ih _ (hk ▸ hrlt) c hcv rfl with ⟨t, ht, n, hpath, hn⟩
      refine ⟨t, ht, n + 1, (d.hasPathTo_succ_iff n v t).mpr
        (Or.inr ⟨c, hc, hpath⟩), ?_⟩
      have hvnot : v ∉ d.verts.filter (fun w => rank w.ident ≤ rank c.ident) := by
        intro hmem
        have := (Finset.mem_filter.mp hmem).2
        omega
      have hins : insert v (d.verts.filter (fun w => rank w.ident ≤ rank c.ident))
          ⊆ d.verts.filter (fun w => rank w.ident ≤ rank v.ident) := by
        intro x hx
        rcases Finset.mem_insert.mp hx with rfl | hx
        · exact Finset.mem_filter.mpr ⟨hv, le_refl _⟩
        · have hx' := Finset.mem_filter.mp hx
          exact Finset.mem_filter.mpr ⟨hx'.1, le_trans hx'.2 (le_of_lt hrlt)⟩
      have hcard := Finset.card_le_card hins
      rw [Finset.card_insert_of_not_mem hvnot] at hcard
      omega

theorem WF.reachable_eq {d : DAG} {rank : Ident → Nat} (h : WF d rank) :
    d.reachable = d.verts :=
  Finset.ext fun v =>
    ⟨fun hv => (Finset.mem_filter.mp hv).1, fun hv => h.mem_reachable v hv⟩

theorem WF.coreachable_eq {d : DAG} {rank : Ident → Nat} (h : WF d rank) :
    d.coreachable = d.verts :=
  Finset.ext fun v =>
    ⟨fun hv => (Finset.mem_filter.mp hv).1, fun hv => h.mem_coreachable v hv⟩

theorem truthFuel_stable {d : DAG} {rank : Ident → Nat} (h : WF d rank)
    (A : String → T3) :
    ∀ k v, v ∈ d.verts → rank v.ident = k → ∀ n m, k < n → k < m →
      truthFuel d A n v = truthFuel d A m v := by
  intro k
  induction k using Nat.strong_induction_on with
  | _ k ih =>
    intro v hv hk n m hn hm
    obtain ⟨n', rfl⟩ : ∃ n', n = n' + 1 := ⟨n - 1, by omega⟩
    obtain ⟨m', rfl⟩ : ∃ m', m = m' + 1 := ⟨m - 1, by omega⟩
    have hchild : ∀ c ∈ (d.succ v).val,
        truthFuel d A n' c = truthFuel d A m' c := by
      intro c hc
      have hce : (v, c) ∈ d.edges := DAG.mem_succ.mp (Finset.mem_val.mp hc)
      have hcv : c ∈ d.verts := (h.1 _ hce).2
      have hclt : rank c.ident < rank v.ident := h.2.2.1 _ hce
      exact ih (rank c.ident) (hk ▸ hclt) c hcv rfl n' m' (by omega) (by omega)
    simp only [truthFuel]
    by_cases hsucc : d.succ v = ∅
    · simp [hsucc]
    · simp only [hsucc, if_false]
      by_cases hf : v.isFact
      · simp only [hf, if_true]
        exact congrArg (assertedOr (A v.factOf))
          (congrArg or3M (Multiset.map_congr rfl hchild))
      · simp only [hf, if_false]
        exact congrArg and3M (Multiset.map_congr rfl hchild)

/-- The recursion equations of `update_truth.add_node`, at the stabilised
fuel, for vertices of a well-formed DAG. -/
theorem truthAt_eq {d : DAG} {rank : Ident → Nat} (h : WF d rank)
    (A : String → T3) {v : GTNode} (hv : v ∈ d.verts) :
    truthAt d A v =
      if d.succ v = ∅ then
        (if v.isFact then A v.factOf else none)
      else if v.isFact then
        assertedOr (A v.factOf) (or3M ((d.succ v).val.map (truthAt d A)))
      else
        and3M ((d.succ v).val.map (truthAt d A)) := by
  have hrb : rank v.ident < d.verts.card := h.2.2.2 _ hv
  obtain ⟨c', hc'⟩ : ∃ c', d.verts.card = c' + 1 := ⟨d.verts.card - 1, by omega⟩
  have hchild : ∀ c ∈ (d.succ v).val,
      truthFuel d A c' c = truthAt d A c := by
    intro c hc
    have hce : (v, c) ∈ d.edges := DAG.mem_succ.mp (Finset.mem_val.mp hc)
    have hcv : c ∈ d.verts := (h.1 _ hce).2
    have hclt : rank c.ident < rank v.ident := h.2.2.1 _ hce
    exact truthFuel_stable h A (rank c.ident) c hcv rfl c' d.verts.card
      (by omega) (h.2.2.2 _ hcv)
  show truthFuel d A d.verts.card v = _
  rw [hc']
  simp only [truthFuel]
  by_cases hsucc : d.succ v = ∅
  · simp [hsucc]
  · simp only [hsucc, if_false]
    by_cases hf : v.isFact
    · simp only [hf, if_true]
      exact congrArg (assertedOr (A v.factOf))
        (congrArg or3M (Multiset.map_congr rfl hchild))
    · simp only [hf, if_false]
      exact congrArg and3M (Multiset.map_congr rfl hchild)

theorem WF.identInjOn {d : DAG} {rank : Ident → Nat} (h : WF d rank) :
    Set.InjOn GTNode.ident ↑d.verts := by
  intro v hv w hw hvw
  exact h.2.1 v (Finset.mem_coe.mp hv) w (Finset.mem_coe.mp hw) hvw

theorem updateTruth_verts {d : DAG} {rank : Ident → Nat} (h : WF d rank)
    (A : String → T3) :
    (updateTruth d A).verts
      = d.verts.image (fun v => v.withTruth (truthAt d A v)) := by
  show d.reachable.image _ = _
  rw [h.reachable_eq]

theorem updateTruth_edges {d : DAG} {rank : Ident → Nat} (h : WF d rank)
    (A : String → T3) :
    (updateTruth d A).edges = d.edges.image
      (fun e => (e.1.withTruth (truthAt d A e.1), e.2.withTruth (truthAt d A e.2))) := by
  show (d.edges.filter (fun e => e.1 ∈ d.reachable)).image _ = _
  rw [h.reachable_eq]
  congr 1
  exact Finset.filter_true_of_mem (fun e he => (h.1 e he).1)

theorem tnode_injOn {d : DAG} {rank : Ident → Nat} (h : WF d rank)
    (A : String → T3) :
    Set.InjOn (fun v : GTNode => v.withTruth (truthAt d A v))
      (↑d.verts : Set GTNode) := by
  intro v hv w hw hvw
  have : (GTNode.withTruth v (truthAt d A v)).ident
      = (GTNode.withTruth w (truthAt d A w)).ident := congrArg GTNode.ident hvw
  simp only [GTNode.ident_withTruth] at this
  exact h.2.1 v (Finset.mem_coe.mp hv) w (Finset.mem_coe.mp hw) this

theorem updateTruth_verts_card {d : DAG} {rank : Ident → Nat} (h : WF d rank)
    (A : String → T3) :
    (updateTruth d A).verts.card = d.verts.card := by
  rw [updateTruth_verts h A]
  exact Finset.card_image_of_injOn (tnode_injOn h A)

theorem updateTruth_succ {d : DAG} {rank : Ident → Nat} (h : WF d rank)
    (A : String → T3) {v : GTNode} (hv : v ∈ d.verts) :
    (updateTruth d A).succ (v.withTruth (truthAt d A v))
      = (d.succ v).image (fun c => c.withTruth (truthAt d A c)) := by
  ext c'
  rw [DAG.mem_succ, updateTruth_edges h A]
  constructor
  · intro hmem
    rcases Finset.mem_image.mp hmem with ⟨e, he, heq⟩
    rw [Prod.mk.injEq] at heq
    have h1 : e.1 = v :=
      tnode_injOn h A (Finset.mem_coe.mpr (h.1 e he).1) (Finset.mem_coe.mpr hv) heq.1
    refine Finset.mem_image.mpr ⟨e.2, DAG.mem_succ.mpr ?_, heq.2⟩
    rw [← h1]
    exact he
  · intro hmem
    rcases Finset.mem_image.mp hmem with ⟨c, hc, hceq⟩
    exact Finset.mem_image.mpr ⟨(v, c), DAG.mem_succ.mp hc, by rw [← hceq]⟩

theorem WF.updateTruth {d : DAG} {rank : Ident → Nat} (h : WF d rank)
    (A : String → T3) : WF (updateTruth d A) rank := by
  refine ⟨?_, ?_, ?_, ?_⟩
  · intro e he
    rw [updateTruth_edges h A] at he
    rcases Finset.mem_image.mp he with ⟨e0, he0, heq⟩
    rw [updateTruth_verts h A, ← heq]
    exact ⟨Finset.mem_image_of_mem _ (h.1 e0 he0).1,
           Finset.mem_image_of_mem _ (h.1 e0 he0).2⟩
  · intro v hv w hw hvw
    rw [updateTruth_verts h A] at hv hw
    rcases Finset.mem_image.mp hv with ⟨v0, hv0, hveq⟩
    rcases Finset.mem_image.mp hw with ⟨w0, hw0, hweq⟩
    subst hveq hweq
    simp only [GTNode.ident_withTruth] at hvw
    rw [h.2.1 v0 hv0 w0 hw0 hvw]
  · intro e he
    rw [updateTruth_edges h A] at he
    rcases Finset.mem_image.mp he with ⟨e0, he0, heq⟩
    rw [← heq]
    simp only [GTNode.ident_withTruth]
    exact h.2.2.1 e0 he0
  · intro v hv
    rw [updateTruth_verts h A] at hv
    rcases Finset.mem_image.mp hv with ⟨v0, hv0, hveq⟩
    rw [← hveq, updateTruth_verts_card h A]
    simp only [GTNode.ident_withTruth]
    exact h.2.2.2 v0 hv0

theorem skel_updateTruth {d : DAG} {rank : Ident → Nat} (h : WF d rank)
    (A : String → T3) : skel (updateTruth d A) = skel d := by
  apply Prod.ext
  · show (updateTruth d A).verts.image GTNode.ident = d.verts.image GTNode.ident
    rw [updateTruth_verts h A, Finset.image_image]
    exact Finset.image_congr (fun v _ => by
      simp [Function.comp, GTNode.ident_withTruth])
  · show (updateTruth d A).edges.image (fun e => (e.1.ident, e.2.ident))
      = d.edges.image (fun e => (e.1.ident, e.2.ident))
    rw [updateTruth_edges h A, Finset.image_image]
    exact Finset.image_congr (fun e _ => by
      simp [Function.comp, GTNode.ident_withTruth])

/-- The recomputed truth depends only on the identity skeleton: two
well-formed DAGs with the same skeleton give every identity the same truth
under `update_truth`. -/
theorem truthAt_skel {d1 d2 : DAG} {rank : Ident → Nat} (h1 : WF d1 rank)
    (h2 : WF d2 rank) (hs : skel d1 = skel d2) (A : String → T3) :
    ∀ k v1, v1 ∈ d1.verts → rank v1.ident = k → ∀ v2 ∈ d2.verts,
      v1.ident = v2.ident → truthAt d1 A v1 = truthAt d2 A v2 := by
  have hedgesI : d1.edges.image (fun e => (e.1.ident, e.2.ident))
      = d2.edges.image (fun e => (e.1.ident, e.2.ident)) := congrArg Prod.snd hs
  intro k
  induction k using Nat.strong_induction_on with
  | _ k ih =>
    intro v1 hv1 hk v2 hv2 hid
    have corr : ∀ i, (∃ c ∈ d1.succ v1, c.ident = i)
        ↔ (∃ c ∈ d2.succ v2, c.ident = i) := by
      intro i
      constructor
      · rintro ⟨c, hc, rfl⟩
        have hmem : (v1.ident, c.ident)
            ∈ d1.edges.image (fun e => (e.1.ident, e.2.ident)) :=
          Finset.mem_image.mpr ⟨(v1, c), DAG.mem_succ.mp hc, rfl⟩
        rw [hedgesI] at hmem
        rcases Finset.mem_image.mp hmem with ⟨e, he, heq⟩
        obtain ⟨a, b⟩ := e
        rw [Prod.mk.injEq] at heq
        have hav : a ∈ d2.verts := (h2.1 _ he).1
        have hae : a = v2 := h2.2.1 a hav v2 hv2 (by rw [heq.1, hid])
        subst hae
        exact ⟨b, DAG.mem_succ.mpr he, heq.2⟩
      · rintro ⟨c, hc, rfl⟩
        have hmem : (v2.ident, c.ident)
            ∈ d2.edges.image (fun e => (e.1.ident, e.2.ident)) :=
          Finset.mem_image.mpr ⟨(v2, c), DAG.mem_succ.mp hc, rfl⟩
        rw [← hedgesI] at hmem
        rcases Finset.mem_image.mp hmem with ⟨e, he, heq⟩
        obtain ⟨a, b⟩ := e
        rw [Prod.mk.injEq] at heq
        have hav : a ∈ d1.verts := (h1.1 _ he).1
        have hae : a = v1 := h1.2.1 a hav v1 hv1 (by rw [heq.1, hid])
        subst hae
        exact ⟨b, DAG.mem_succ.mpr he, heq.2⟩
    have hempty : d1.succ v1 = ∅ ↔ d2.succ v2 = ∅ := by
      constructor
      · intro hse
        rw [Finset.eq_empty_iff_forall_not_mem]
        intro c hc
        rcases (corr c.ident).mpr ⟨c, hc, rfl⟩ with ⟨c', hc', _⟩
        exact absurd hc' (by rw [hse]; exact Finset.not_mem_empty c')
      · intro hse
        rw [Finset.eq_empty_iff_forall_not_mem]
        intro c hc
        rcases (corr c.ident).mp ⟨c, hc, rfl⟩ with ⟨c', hc', _⟩
        exact absurd hc' (by rw [hse]; exact Finset.not_mem_empty c')
    have hkind := GTNode.isFact_factOf_of_ident hid
    have hmaps : ∀ x, x ∈ (d1.succ v1).val.map (truthAt d1 A)
        ↔ x ∈ (d2.succ v2).val.map (truthAt d2 A) := by
      intro x
      simp only [Multiset.mem_map, Finset.mem_val]
      constructor
      · rintro ⟨c, hc, rfl⟩
        obtain ⟨c2, hc2, hcid⟩ := (corr c.ident).mp ⟨c, hc, rfl⟩
        have hce : (v1, c) ∈ d1.edges := DAG.mem_succ.mp hc
        have hcv : c ∈ d1.verts := (h1.1 _ hce).2
        have hclt : rank c.ident < rank v1.ident := h1.2.2.1 _ hce
        have hc2v : c2 ∈ d2.verts := (h2.1 _ (DAG.mem_succ.mp hc2)).2
        exact ⟨c2, hc2,
          (ih (rank c.ident) (hk ▸ hclt) c hcv rfl c2 hc2v hcid.symm).symm⟩
      · rintro ⟨c2, hc2, rfl⟩
        obtain ⟨c, hc, hcid⟩ := (corr c2.ident).mpr ⟨c2, hc2, rfl⟩
        have hce : (v1, c) ∈ d1.edges := DAG.mem_succ.mp hc
        have hcv : c ∈ d1.verts := (h1.1 _ hce).2
        have hclt : rank c.ident < rank v1.ident := h1.2.2.1 _ hce
        have hc2v : c2 ∈ d2.verts := (h2.1 _ (DAG.mem_succ.mp hc2)).2
        exact ⟨c, hc, ih (rank c.ident) (hk ▸ hclt) c hcv rfl c2 hc2v hcid⟩
    rw [truthAt_eq h1 A hv1, truthAt_eq h2 A hv2]
    by_cases hs1 : d1.succ v1 = ∅
    · rw [if_pos hs1, if_pos (hempty.mp hs1), hkind.1, hkind.2]
    · rw [if_neg hs1, if_neg (fun hcon => hs1 (hempty.mpr hcon)),
        hkind.1, hkind.2]
      by_cases hf : v2.isFact
      · rw [if_pos hf, if_pos hf]
        exact congrArg (assertedOr (A v2.factOf)) (or3M_congr hmaps)
      · rw [if_neg hf, if_neg hf]
        exact and3M_congr hmaps

/-- `update_truth` depends only on the identity skeleton of its input. -/
theorem updateTruth_skel_det {d1 d2 : DAG} {rank : Ident → Nat}
    (h1 : WF d1 rank) (h2 : WF d2 rank) (hs : skel d1 = skel d2)
    (A : String → T3) : updateTruth d1 A = updateTruth d2 A := by
  have hvertsI : d1.verts.image GTNode.ident = d2.verts.image GTNode.ident :=
    congrArg Prod.fst hs
  have hedgesI : d1.edges.image (fun e => (e.1.ident, e.2.ident))
      = d2.edges.image (fun e => (e.1.ident, e.2.ident)) := congrArg Prod.snd hs
  have hta : ∀ v1 ∈ d1.verts, ∀ v2 ∈ d2.verts, v1.ident = v2.ident →
      truthAt d1 A v1 = truthAt d2 A v2 := by
    intro v1 hv1 v2 hv2 hid
    exact truthAt_skel h1 h2 hs A (rank v1.ident) v1 hv1 rfl v2 hv2 hid
  apply DAG.ext
  · rw [updateTruth_verts h1 A, updateTruth_verts h2 A]
    ext x
    constructor
    · intro hx
      rcases Finset.mem_image.mp hx with ⟨v1, hv1, hveq⟩
      have : v1.ident ∈ d2.verts.image GTNode.ident :=
        hvertsI ▸ Finset.mem_image_of_mem _ hv1
      rcases Finset.mem_image.mp this with ⟨v2, hv2, hid⟩
      refine Finset.mem_image.mpr ⟨v2, hv2, ?_⟩
      rw [← hveq, ← hta v1 hv1 v2 hv2 hid.symm]
      exact GTNode.withTruth_eq_of_ident v2 v1 _ hid
    · intro hx
      rcases Finset.mem_image.mp hx with ⟨v2, hv2, hveq⟩
      have : v2.ident ∈ d1.verts.image GTNode.ident :=
        hvertsI ▸ Finset.mem_image_of_mem _ hv2
      rcases Finset.mem_image.mp this with ⟨v1, hv1, hid⟩
      refine Finset.mem_image.mpr ⟨v1, hv1, ?_⟩
      rw [← hveq, hta v1 hv1 v2 hv2 hid]
      exact GTNode.withTruth_eq_of_ident v1 v2 _ hid
  · rw [updateTruth_edges h1 A, updateTruth_edges h2 A]
    ext x
    constructor
    · intro hx
      rcases Finset.mem_image.mp hx with ⟨e1, he1, heq⟩
      have : (e1.1.ident, e1.2.ident)
          ∈ d2.edges.image (fun e => (e.1.ident, e.2.ident)) :=
        hedgesI ▸ Finset.mem_image.mpr ⟨e1, he1, rfl⟩
      rcases Finset.mem_image.mp this with ⟨e2, he2, hideq⟩
      rw [Prod.mk.injEq] at hideq
      refine Finset.mem_image.mpr ⟨e2, he2, ?_⟩
      rw [← heq, Prod.mk.injEq]
      have h1v : e1.1 ∈ d1.verts := (h1.1 _ he1).1
      have h2v : e1.2 ∈ d1.verts := (h1.1 _ he1).2
      have h1v' : e2.1 ∈ d2.verts := (h2.1 _ he2).1
      have h2v' : e2.2 ∈ d2.verts := (h2.1 _ he2).2
      constructor
      · rw [← hta e1.1 h1v e2.1 h1v' hideq.1.symm]
        exact GTNode.withTruth_eq_of_ident e2.1 e1.1 _ hideq.1
      · rw [← hta e1.2 h2v e2.2 h2v' hideq.2.symm]
        exact GTNode.withTruth_eq_of_ident e2.2 e1.2 _ hideq.2
    · intro hx
      rcases Finset.mem_image.mp hx with ⟨e2, he2, heq⟩
      have : (e2.1.ident, e2.2.ident)
          ∈ d1.edges.image (fun e => (e.1.ident, e.2.ident)) :=
        hedgesI ▸ Finset.mem_image.mpr ⟨e2, he2, rfl⟩
      rcases Finset.mem_image.mp this with ⟨e1, he1, hideq⟩
      rw [Prod.mk.injEq] at hideq
      refine Finset.mem_image.mpr ⟨e1, he1, ?_⟩
      rw [← heq, Prod.mk.injEq]
      have h1v : e1.1 ∈ d1.verts := (h1.1 _ he1).1
      have h2v : e1.2 ∈ d1.verts := (h1.1 _ he1).2
      have h1v' : e2.1 ∈ d2.verts := (h2.1 _ he2).1
      have h2v' : e2.2 ∈ d2.verts := (h2.1 _ he2).2
      constructor
      · rw [hta e1.1 h1v e2.1 h1v' hideq.1]
        exact GTNode.withTruth_eq_of_ident e1.1 e2.1 _ hideq.1
      · rw [hta e1.2 h2v e2.2 h2v' hideq.2]
        exact GTNode.withTruth_eq_of_ident e1.2 e2.2 _ hideq.2

/-- C5: for all `a, b` in the three truth values, `or3 [a, b]` and
`and3 [a, b]` realise exactly the Kleene truth tables, and on the empty
collection `or3 [] = false` and `and3 [] = true`. -/
theorem or3_and3_kleene :
    (∀ a b : T3, or3 [a, b] = kleeneOr a b) ∧
    (∀ a b : T3, and3 [a, b] = kleeneAnd a b) ∧
    or3 [] = some false ∧ and3 [] = some true := by
  refine ⟨by decide, by decide, by decide, by decide⟩

/-- C7: for every well-formed DAG and assertion map, re-evaluating with the
same assertions is a no-op: `update_truth(update_truth(d, A), A)` equals
`update_truth(d, A)`, both as records and under the structural DAG equality
of `DAG.__eq__`. -/
theorem updateTruth_idempotent (d : DAG) (rank : Ident → Nat) (A : String → T3)
    (h : WF d rank) :
    updateTruth (updateTruth d A) A = updateTruth d A ∧
    structEq (updateTruth (updateTruth d A) A) (updateTruth d A) := by
  have he : updateTruth (updateTruth d A) A = updateTruth d A :=
    updateTruth_skel_det (h.updateTruth A) h (skel_updateTruth h A) A
  refine ⟨he, ?_⟩
  rw [he]
  exact ⟨rfl, fun v _ => rfl⟩

theorem updateTruth_idempotent_witness :
    WF dEx1 rankEx1 ∧
    updateTruth (updateTruth dEx1 AEx1) AEx1 = updateTruth dEx1 AEx1 :=
  ⟨by decide, (updateTruth_idempotent dEx1 rankEx1 AEx1 (by decide)).1⟩

/-- C1: for every well-formed DAG and assertion map, `update_truth` puts the
recomputed node of every vertex into the new DAG, and the recomputed truth
is: for a leaf fact node the asserted value of its fact (unknown when
absent), for an intermediate fact node the asserted value when present and
otherwise `or3` of the truths of its recomputed successors, and for an
and-node `and3` of the truths of its recomputed successors. -/
theorem updateTruth_node_semantics (d : DAG) (rank : Ident → Nat)
    (A : String → T3) (h : WF d rank) :
    ∀ v ∈ d.verts,
      v.withTruth (truthAt d A v) ∈ (updateTruth d A).verts ∧
      (d.succ v = ∅ → v.isFact = true → truthAt d A v = A v.factOf) ∧
      (d.succ v ≠ ∅ → v.isFact = true →
        truthAt d A v
          = assertedOr (A v.factOf) (or3M ((d.succ v).val.map (truthAt d A)))) ∧
      (d.succ v ≠ ∅ → v.isFact = false →
        truthAt d A v = and3M ((d.succ v).val.map (truthAt d A))) := by
  intro v hv
  refine ⟨?_, ?_, ?_, ?_⟩
  · rw [updateTruth_verts h A]
    exact Finset.mem_image_of_mem _ hv
  · intro hsucc hf
    rw [truthAt_eq h A hv, if_pos hsucc, if_pos hf]
  · intro hsucc hf
    rw [truthAt_eq h A hv, if_neg hsucc, if_pos hf]
  · intro hsucc hf
    rw [truthAt_eq h A hv, if_neg hsucc, if_neg (by simp [hf])]

theorem updateTruth_node_semantics_witness :
    WF dEx1 rankEx1 ∧ truthAt dEx1 AEx1 nBx = AEx1 nBx.factOf :=
  ⟨by decide,
    (updateTruth_node_semantics dEx1 rankEx1 AEx1 (by decide) nBx
      (by decide)).2.1 (by decide) (by decide)⟩

theorem prunedFuel_stable {d : DAG} {rank : Ident → Nat} (h : WF d rank) :
    ∀ k v, v ∈ d.verts → d.verts.card - rank v.ident = k →
      ∀ n m, k ≤ n → k ≤ m → prunedFuel d n v = prunedFuel d m v := by
  intro k
  induction k using Nat.strong_induction_on with
  | _ k ih =>
    intro v hv hk n m hn hm
    have hvb : rank v.ident < d.verts.card := h.2.2.2 _ hv
    obtain ⟨n', rfl⟩ : ∃ n', n = n' + 1 := ⟨n - 1, by omega⟩
    obtain ⟨m', rfl⟩ : ∃ m', m = m' + 1 := ⟨m - 1, by omega⟩
    simp only [prunedFuel]
    by_cases hroot : d.pred v = ∅
    · simp [hroot]
    · simp only [hroot, if_false]
      have hiff : (∀ p ∈ d.pred v, p.truth ≠ none ∨ prunedFuel d n' p = true)
          ↔ (∀ p ∈ d.pred v, p.truth ≠ none ∨ prunedFuel d m' p = true) := by
        apply forall₂_congr
        intro p hp
        have hpe : (p, v) ∈ d.edges := DAG.mem_pred.mp hp
        have hpv : p ∈ d.verts := (h.1 _ hpe).1
        have hplt : rank v.ident < rank p.ident := h.2.2.1 _ hpe
        have hpb : rank p.ident < d.verts.card := h.2.2.2 _ hpv
        rw [ih (d.verts.card - rank p.ident) (by omega) p hpv rfl n' m'
          (by omega) (by omega)]
      rw [decide_eq_decide.mpr hiff]

/-- The recursion equations of `update_pruned.add_node`, at the stabilised
fuel, for vertices of a well-formed DAG. -/
theorem prunedAt_eq {d : DAG} {rank : Ident → Nat} (h : WF d rank)
    {v : GTNode} (hv : v ∈ d.verts) :
    prunedAt d v =
      if d.pred v = ∅ then v.pruned
      else
        decide (v.truth = none) &&
          decide (∀ p ∈ d.pred v, p.truth ≠ none ∨ prunedAt d p = true) := by
  have hvb : rank v.ident < d.verts.card := h.2.2.2 _ hv
  obtain ⟨c', hc'⟩ : ∃ c', d.verts.card = c' + 1 := ⟨d.verts.card - 1, by omega⟩
  show prunedFuel d d.verts.card v = _
  rw [hc']
  simp only [prunedFuel]
  by_cases hroot : d.pred v = ∅
  · simp [hroot]
  · simp only [hroot, if_false]
    have hiff : (∀ p ∈ d.pred v, p.truth ≠ none ∨ prunedFuel d c' p = true)
        ↔ (∀ p ∈ d.pred v, p.truth ≠ none ∨ prunedAt d p = true) := by
      apply forall₂_congr
      intro p hp
      have hpe : (p, v) ∈ d.edges := DAG.mem_pred.mp hp
      have hpv : p ∈ d.verts := (h.1 _ hpe).1
      have hplt : rank v.ident < rank p.ident := h.2.2.1 _ hpe
      have hpb : rank p.ident < d.verts.card := h.2.2.2 _ hpv
      unfold prunedAt
      rw [prunedFuel_stable h (d.verts.card - rank p.ident) p hpv rfl c'
        d.verts.card (by omega) (by omega)]
    rw [decide_eq_decide.mpr hiff]

theorem updatePruned_verts {d : DAG} {rank : Ident → Nat} (h : WF d rank) :
    (updatePruned d).verts
      = d.verts.image (fun v => v.withPruned (prunedAt d v)) := by
  show d.coreachable.image _ = _
  rw [h.coreachable_eq]

theorem updatePruned_edges {d : DAG} {rank : Ident → Nat} (h : WF d rank) :
    (updatePruned d).edges = d.edges.image
      (fun e => (e.1.withPruned (prunedAt d e.1), e.2.withPruned (prunedAt d e.2))) := by
  show (d.edges.filter (fun e => e.2 ∈ d.coreachable)).image _ = _
  rw [h.coreachable_eq]
  congr 1
  exact Finset.filter_true_of_mem (fun e he => (h.1 e he).2)

theorem pnode_injOn {d : DAG} {rank : Ident → Nat} (h : WF d rank) :
    Set.InjOn (fun v : GTNode => v.withPruned (prunedAt d v))
      (↑d.verts : Set GTNode) := by
  intro v hv w hw hvw
  have : (GTNode.withPruned v (prunedAt d v)).ident
      = (GTNode.withPruned w (prunedAt d w)).ident := congrArg GTNode.ident hvw
  simp only [GTNode.ident_withPruned] at this
  exact h.2.1 v (Finset.mem_coe.mp hv) w (Finset.mem_coe.mp hw) this

theorem updatePruned_verts_card {d : DAG} {rank : Ident → Nat} (h : WF d rank) :
    (updatePruned d).verts.card = d.verts.card := by
  rw [updatePruned_verts h]
  exact Finset.card_image_of_injOn (pnode_injOn h)

theorem WF.updatePruned {d : DAG} {rank : Ident → Nat} (h : WF d rank) :
    WF (updatePruned d) rank := by
  refine ⟨?_, ?_, ?_, ?_⟩
  · intro e he
    rw [updatePruned_edges h] at he
    rcases Finset.mem_image.mp he with ⟨e0, he0, heq⟩
    rw [updatePruned_verts h, ← heq]
    exact ⟨Finset.mem_image_of_mem _ (h.1 e0 he0).1,
           Finset.mem_image_of_mem _ (h.1 e0 he0).2⟩
  · intro v hv w hw hvw
    rw [updatePruned_verts h] at hv hw
    rcases Finset.mem_image.mp hv with ⟨v0, hv0, hveq⟩
    rcases Finset.mem_image.mp hw with ⟨w0, hw0, hweq⟩
    subst hveq hweq
    simp only [GTNode.ident_withPruned] at hvw
    rw [h.2.1 v0 hv0 w0 hw0 hvw]
  · intro e he
    rw [updatePruned_edges h] at he
    rcases Finset.mem_image.mp he with ⟨e0, he0, heq⟩
    rw [← heq]
    simp only [GTNode.ident_withPruned]
    exact h.2.2.1 e0 he0
  · intro v hv
    rw [updatePruned_verts h] at hv
    rcases Finset.mem_image.mp hv with ⟨v0, hv0, hveq⟩
    rw [← hveq, updatePruned_verts_card h]
    simp only [GTNode.ident_withPruned]
    exact h.2.2.2 v0 hv0

theorem skel_updatePruned {d : DAG} {rank : Ident → Nat} (h : WF d rank) :
    skel (updatePruned d) = skel d := by
  apply Prod.ext
  · show (updatePruned d).verts.image GTNode.ident = d.verts.image GTNode.ident
    rw [updatePruned_verts h, Finset.image_image]
    exact Finset.image_congr (fun v _ => by
      simp [Function.comp, GTNode.ident_withPruned])
  · show (updatePruned d).edges.image (fun e => (e.1.ident, e.2.ident))
      = d.edges.image (fun e => (e.1.ident, e.2.ident))
    rw [updatePruned_edges h, Finset.image_image]
    exact Finset.image_congr (fun e _ => by
      simp [Function.comp, GTNode.ident_withPruned])

theorem skelT_updatePruned {d : DAG} {rank : Ident → Nat} (h : WF d rank) :
    skelT (updatePruned d) = skelT d := by
  apply Prod.ext
  · show (updatePruned d).verts.image (fun v => (v.ident, v.truth))
      = d.verts.image (fun v => (v.ident, v.truth))
    rw [updatePruned_verts h, Finset.image_image]
    exact Finset.image_congr (fun v _ => by simp [Function.comp])
  · show (updatePruned d).edges.image
        (fun e => ((e.1.ident, e.1.truth), (e.2.ident, e.2.truth)))
      = d.edges.image (fun e => ((e.1.ident, e.1.truth), (e.2.ident, e.2.truth)))
    rw [updatePruned_edges h, Finset.image_image]
    exact Finset.image_congr (fun e _ => by simp [Function.comp])

/-- C8: `update_pruned` returns a new DAG whose vertices are exactly the
input's vertices rebuilt with recomputed pruned flags, whose edges are the
input's edges between the rebuilt endpoints, and in which every node keeps
its identity and truth value (the identity-and-truth skeleton is unchanged);
the input DAG itself is untouched (`updatePruned` is a pure function of it). -/
theorem updatePruned_preserves (d : DAG) (rank : Ident → Nat) (h : WF d rank) :
    (updatePruned d).verts
      = d.verts.image (fun v => v.withPruned (prunedAt d v)) ∧
    (∀ v ∈ d.verts, (v.withPruned (prunedAt d v)).truth = v.truth ∧
      (v.withPruned (prunedAt d v)).ident = v.ident) ∧
    (updatePruned d).edges = d.edges.image
      (fun e => (e.1.withPruned (prunedAt d e.1), e.2.withPruned (prunedAt d e.2))) ∧
    skelT (updatePruned d) = skelT d :=
  ⟨updatePruned_verts h,
   fun v _ => ⟨GTNode.truth_withPruned v _, GTNode.ident_withPruned v _⟩,
   updatePruned_edges h, skelT_updatePruned h⟩

theorem updatePruned_preserves_witness :
    WF dEx2 rankEx2 ∧ skelT (updatePruned dEx2) = skelT dEx2 :=
  ⟨by decide, (updatePruned_preserves dEx2 rankEx2 (by decide)).2.2.2⟩

/-- C2 counterexample: in the DAG `a → b` with both truths known, `b`'s only
parent has a known truth, so the claim's rule would prune `b`; the code
leaves `b` unpruned because its own truth is known.  The claimed
parent-only pruning rule is therefore false on this DAG. -/
theorem updatePruned_own_truth_counterexample : ¬ claimPrunedPred dEx2 := by
  decide

/-- C2 (amended): a root node keeps its pruned flag (never pruned on a
truth-evaluated DAG, whose flags are all false), and a non-root node is
pruned iff its own truth is unknown AND every parent has a known
(non-unknown) truth or is itself pruned. -/
theorem updatePruned_node_semantics (d : DAG) (rank : Ident → Nat)
    (h : WF d rank) :
    ∀ v ∈ d.verts,
      v.withPruned (prunedAt d v) ∈ (updatePruned d).verts ∧
      (d.pred v = ∅ → prunedAt d v = v.pruned) ∧
      (d.pred v ≠ ∅ →
        (prunedAt d v = true ↔
          v.truth = none ∧
            ∀ p ∈ d.pred v, p.truth ≠ none ∨ prunedAt d p = true)) := by
  intro v hv
  refine ⟨?_, ?_, ?_⟩
  · rw [updatePruned_verts h]
    exact Finset.mem_image_of_mem _ hv
  · intro hroot
    rw [prunedAt_eq h hv, if_pos hroot]
  · intro hroot
    rw [prunedAt_eq h hv, if_neg hroot]
    simp

theorem updatePruned_node_semantics_witness :
    WF dEx2 rankEx2 ∧
    (prunedAt dEx2 cbEx2 = true ↔
      cbEx2.truth = none ∧
        ∀ p ∈ dEx2.pred cbEx2, p.truth ≠ none ∨ prunedAt dEx2 p = true) :=
  ⟨by decide,
    (updatePruned_node_semantics dEx2 rankEx2 (by decide) cbEx2
      (by decide)).2.2 (by decide)⟩

theorem theFact_singleton (v : GTNode) : theFact {v} = some v.factOf := by
  unfold theFact
  rw [Finset.singleton_val, Multiset.map_singleton, Multiset.foldr_singleton]
  rfl

/-- C4: for every truth-evaluated DAG whose roots are fact nodes, `solution`
returns the unique true root's fact when exactly one root is true, raises
when two or more roots are true, raises when all roots are false, returns
the single remaining unknown root when all other roots are false, and
returns `none` in every other case. -/
theorem solution_cases (d : DAG)
    (hfacts : ∀ v ∈ d.allStarts, v.isFact = true) :
    (∀ v ∈ d.allStarts, v.truth = some true →
      (∀ w ∈ d.allStarts, w.truth = some true → w = v) →
      solution d = .ok (some v.factOf)) ∧
    (∀ v ∈ d.allStarts, ∀ w ∈ d.allStarts, v ≠ w →
      v.truth = some true → w.truth = some true →
      ∃ e, solution d = .error e) ∧
    ((∀ v ∈ d.allStarts, v.truth = some false) →
      ∃ e, solution d = .error e) ∧
    (∀ v ∈ d.allStarts, v.truth = none →
      (∀ w ∈ d.allStarts, w ≠ v → w.truth = some false) →
      solution d = .ok (some v.factOf)) ∧
    ((d.allStarts.filter (fun v => v.truth = some true)).card = 0 →
      (d.allStarts.filter (fun v => v.truth = some false)).card ≠ d.allStarts.card →
      (d.allStarts.filter (fun v => v.truth = none)).card ≠ 1 →
      solution d = .ok none) := by
  refine ⟨?_, ?_, ?_, ?_, ?_⟩
  · intro v hv ht huniq
    have htn : d.allStarts.filter (fun w => w.truth = some true) = {v} := by
      ext w
      simp only [Finset.mem_filter, Finset.mem_singleton]
      constructor
      · rintro ⟨hw, hwt⟩
        exact huniq w hw hwt
      · rintro rfl
        exact ⟨hv, ht⟩
    unfold solution
    rw [htn, if_pos (Finset.card_singleton v), theFact_singleton]
  · intro v hv w hw hne hvt hwt
    have hsub : ({v, w} : Finset GTNode)
        ⊆ d.allStarts.filter (fun x => x.truth = some true) := by
      intro x hx
      rcases Finset.mem_insert.mp hx with rfl | hx
      · exact Finset.mem_filter.mpr ⟨hv, hvt⟩
      · rw [Finset.mem_singleton] at hx
        subst hx
        exact Finset.mem_filter.mpr ⟨hw, hwt⟩
    have hcard2 : 2 ≤ (d.allStarts.filter (fun x => x.truth = some true)).card := by
      have hc := Finset.card_le_card hsub
      rw [Finset.card_insert_of_not_mem (by simp [hne]),
        Finset.card_singleton] at hc
      exact hc
    refine ⟨"More than one hypothesis are true.", ?_⟩
    unfold solution
    rw [if_neg (by omega), if_pos (by omega)]
  · intro hall
    have hfn : d.allStarts.filter (fun x => x.truth = some false) = d.allStarts :=
      Finset.filter_true_of_mem (fun x hx => hall x hx)
    have htn : d.allStarts.filter (fun x => x.truth = some true) = ∅ := by
      apply Finset.filter_false_of_mem
      intro x hx
      rw [hall x hx]
      simp
    refine ⟨"More than one hypothesis are true.", ?_⟩
    unfold solution
    rw [htn, hfn, Finset.card_empty, if_neg (by omega), if_neg (by omega),
      if_pos rfl]
  · intro v hv hvt hothers
    have htn : d.allStarts.filter (fun x => x.truth = some true) = ∅ := by
      apply Finset.filter_false_of_mem
      intro x hx
      by_cases hxv : x = v
      · subst hxv
        rw [hvt]
        simp
      · rw [hothers x hx hxv]
        simp
    have hun : d.allStarts.filter (fun x => x.truth = none) = {v} := by
      ext w
      simp only [Finset.mem_filter, Finset.mem_singleton]
      constructor
      · rintro ⟨hw, hwt⟩
        by_contra hwv
        rw [hothers w hw hwv] at hwt
        exact Option.noConfusion hwt
      · rintro rfl
        exact ⟨hv, hvt⟩
    have hfncard :
        (d.allStarts.filter (fun x => x.truth = some false)).card
          ≠ d.allStarts.card := by
      intro hc
      have heq : d.allStarts.filter (fun x => x.truth = some false)
          = d.allStarts :=
        Finset.eq_of_subset_of_card_le (Finset.filter_subset _ _) (le_of_eq hc.symm)
      have : v ∈ d.allStarts.filter (fun x => x.truth = some false) :=
        heq.symm ▸ hv
      rw [Finset.mem_filter, hvt] at this
      exact Option.noConfusion this.2
    unfold solution
    rw [htn, Finset.card_empty, if_neg (by omega), if_neg (by omega),
      if_neg hfncard, hun, if_pos (Finset.card_singleton v), theFact_singleton]
  · intro h1 h2 h3
    unfold solution
    rw [if_neg (by omega), if_neg (by omega), if_neg h2, if_neg h3]

theorem solution_cases_witness :
    (∀ v ∈ dEx4.allStarts, v.isFact = true) ∧
    solution dEx4 = .ok (some rEx4a.factOf) :=
  ⟨by decide,
    (solution_cases dEx4 (by decide)).1 rEx4a (by decide) (by decide)
      (by decide)⟩

/-- C6 counterexample: the batched call `add_edge(a, b, a)` on a two-vertex
edgeless DAG fails on its second target (a self-loop), but by then the first
edge `(a, b)` has already been inserted: the call raises AND leaves the edge
set changed, contradicting the claimed no-partial-mutation guarantee. -/
theorem addEdge_batch_counterexample :
    (addEdge dEx6 aEx6 [bEx6, aEx6]).1.isSome = true ∧
    (addEdge dEx6 aEx6 [bEx6, aEx6]).2 ≠ dEx6 := by
  refine ⟨by decide, by decide⟩

/-- C6 (amended): `remove_edge` and single-target `add_edge` fail without
any mutation, and batched `add_edge` fails without mutation when some
endpoint is not a vertex (validation precedes all insertion); `remove_edge`
fails exactly on a missing vertex or a non-existent edge, and single-target
`add_edge` on valid vertices fails exactly when the new edge would close a
cycle.  (A batched `add_edge` that fails on a later target's cycle check
does keep the earlier targets' edges, see the counterexample.) -/
theorem dag_edge_ops_atomic :
    (∀ d vf vt e d', removeEdge d vf vt = (some e, d') → d' = d) ∧
    (∀ d vf vt, (removeEdge d vf vt).1.isSome = true ↔
      (vf ∉ d.verts ∨ vt ∉ d.verts ∨ (vf, vt) ∉ d.edges)) ∧
    (∀ d vf vt e d', addEdge d vf [vt] = (some e, d') → d' = d) ∧
    (∀ d vf vts, ¬ (vf ∈ d.verts ∧ ∀ v ∈ vts, v ∈ d.verts) →
      (addEdge d vf vts).1.isSome = true ∧ (addEdge d vf vts).2 = d) ∧
    (∀ d vf vt, vf ∈ d.verts → vt ∈ d.verts →
      ((addEdge d vf [vt]).1.isSome = true
        ↔ d.hasPathTo d.verts.card vt vf = true)) := by
  refine ⟨?_, ?_, ?_, ?_, ?_⟩
  · intro d vf vt e d' h
    unfold removeEdge at h
    by_cases h1 : vf ∈ d.verts ∧ vt ∈ d.verts
    · rw [if_pos h1] at h
      by_cases h2 : vt ∈ d.succ vf
      · rw [if_pos h2] at h
        exact absurd (congrArg Prod.fst h) (by simp)
      · rw [if_neg h2] at h
        exact (congrArg Prod.snd h).symm
    · rw [if_neg h1] at h
      exact (congrArg Prod.snd h).symm
  · intro d vf vt
    unfold removeEdge
    by_cases h1 : vf ∈ d.verts ∧ vt ∈ d.verts
    · rw [if_pos h1]
      by_cases h2 : vt ∈ d.succ vf
      · rw [if_pos h2]
        simp [h1.1, h1.2, DAG.mem_succ.mp h2]
      · rw [if_neg h2]
        have hne : (vf, vt) ∉ d.edges := fun hc => h2 (DAG.mem_succ.mpr hc)
        simp [hne]
    · rw [if_neg h1]
      rcases not_and_or.mp h1 with h | h <;> simp [h]
  · intro d vf vt e d' h
    unfold addEdge at h
    by_cases h1 : vf ∈ d.verts ∧ ∀ v ∈ [vt], v ∈ d.verts
    · rw [if_pos h1] at h
      unfold addEdgeGo at h
      by_cases h2 : d.hasPathTo d.verts.card vt vf = true
      · rw [if_pos h2] at h
        exact (congrArg Prod.snd h).symm
      · rw [if_neg h2] at h
        exact absurd (congrArg Prod.fst h) (by simp [addEdgeGo])
    · rw [if_neg h1] at h
      exact (congrArg Prod.snd h).symm
  · intro d vf vts hmiss
    unfold addEdge
    rw [if_neg hmiss]
    exact ⟨rfl, rfl⟩
  · intro d vf vt h1 h2
    unfold addEdge
    rw [if_pos ⟨h1, by
      intro v hv
      rw [List.mem_singleton] at hv
      subst hv
      exact h2⟩]
    unfold addEdgeGo
    by_cases hp : d.hasPathTo d.verts.card vt vf = true
    · rw [if_pos hp]
      simp [hp]
    · rw [if_neg hp]
      simp [addEdgeGo, hp]

theorem dag_edge_ops_atomic_witness :
    (¬ (aEx6 ∈ dEx6.verts ∧ ∀ v ∈ [nAx], v ∈ dEx6.verts)) ∧
    (addEdge dEx6 aEx6 [nAx]).1.isSome = true ∧
    (addEdge dEx6 aEx6 [nAx]).2 = dEx6 :=
  ⟨by decide, dag_edge_ops_atomic.2.2.2.1 dEx6 aEx6 [nAx] (by decide)⟩

theorem mem_excludedFacts {groups : List (Finset String)} {tr : String → T3}
    {f : String} :
    f ∈ excludedFacts groups tr ↔
      ∃ g ∈ groups, (∃ x ∈ g, tr x = some true) ∧ f ∈ g ∧ tr f ≠ some true := by
  induction groups with
  | nil => simp [excludedFacts]
  | cons g gs ih =>
    unfold excludedFacts at ih ⊢
    simp only [List.foldr_cons]
    by_cases hg : ∃ x ∈ g, tr x = some true
    · rw [if_pos hg]
      simp only [Finset.mem_union, Finset.mem_filter, List.mem_cons]
      constructor
      · rintro (⟨hfg, hft⟩ | hrest)
        · exact ⟨g, Or.inl rfl, hg, hfg, hft⟩
        · rcases ih.mp hrest with ⟨g', hg', hx, hfg', hft'⟩
          exact ⟨g', Or.inr hg', hx, hfg', hft'⟩
      · rintro ⟨g', hg', hx, hfg', hft'⟩
        rcases hg' with rfl | hg'
        · exact Or.inl ⟨hfg', hft'⟩
        · exact Or.inr (ih.mpr ⟨g', hg', hx, hfg', hft'⟩)
    · rw [if_neg hg]
      constructor
      · intro hrest
        rcases ih.mp hrest with ⟨g', hg', hx, hfg', hft'⟩
        exact ⟨g', List.mem_cons_of_mem _ hg', hx, hfg', hft'⟩
      · rintro ⟨g', hg', hx, hfg', hft'⟩
        rcases List.mem_cons.mp hg' with rfl | hg'
        · exact absurd hx hg
        · exact ih.mpr ⟨g', hg', hx, hfg', hft'⟩

/-- Every `ok` result of the group-fixpoint loop is an `update_truth` of the
input skeleton, no group of it has two true members, and in any group with a
true member all other members are false. -/
theorem utwgGo_ok {d : DAG} {groups : List (Finset String)} :
    ∀ n A d', utwgGo d groups n A = .ok d' →
      (∃ A', d' = updateTruth d A') ∧
      (∀ g ∈ groups,
        (g.filter (fun f => factTruth d' f = some true)).card ≤ 1) ∧
      (∀ g ∈ groups, (∃ x ∈ g, factTruth d' x = some true) →
        ∀ f ∈ g, factTruth d' f ≠ some true → factTruth d' f = some false) := by
  intro n
  induction n with
  | zero =>
    intro A d' h
    exact absurd h (by simp [utwgGo])
  | succ n ih =>
    intro A d' h
    unfold utwgGo at h
    by_cases hc : ∃ g ∈ groups,
        2 ≤ (g.filter (fun f => factTruth (updateTruth d A) f = some true)).card
    · rw [if_pos hc] at h
      exact absurd h (by simp)
    · rw [if_neg hc] at h
      push_neg at hc
      by_cases he : excludedFacts groups (factTruth (updateTruth d A)) = ∅
      · rw [if_pos he] at h
        have hd : d' = updateTruth d A := (Except.ok.inj h).symm
        subst hd
        refine ⟨⟨A, rfl⟩, ?_, ?_⟩
        · intro g hg
          have := hc g hg
          omega
        · intro g hg hx f hf hft
          have hmem : f ∈ excludedFacts groups (factTruth (updateTruth d A)) :=
            mem_excludedFacts.mpr ⟨g, hg, hx, hf, hft⟩
          rw [he] at hmem
          exact absurd hmem (Finset.not_mem_empty f)
      · rw [if_neg he] at h
        by_cases hall : ∀ f ∈ excludedFacts groups (factTruth (updateTruth d A)),
            factTruth (updateTruth d A) f = some false
        · rw [if_pos hall] at h
          have hd : d' = updateTruth d A := (Except.ok.inj h).symm
          subst hd
          refine ⟨⟨A, rfl⟩, ?_, ?_⟩
          · intro g hg
            have := hc g hg
            omega
          · intro g hg hx f hf hft
            exact hall f (mem_excludedFacts.mpr ⟨g, hg, hx, hf, hft⟩)
        · rw [if_neg hall] at h
          exact ih _ d' h

/-- C3: an `ok` result of `update_truth_with_groups` never has two true
members in one exclusive group, and in any group with a (then unique) true
member every other member is false; when the evaluated DAG has two true
members in some group the function raises instead; and the claim's concrete
scenario (rules `F ← (A∧B∧C) ∨ D`, `A ← S`, group `{A,B,C}`, assert
`S = true`) reaches the fixpoint `A = true, B = false, C = false` with `F`
and `D` unknown. -/
theorem updateTruthWithGroups_exclusive :
    (∀ d A groups d', updateTruthWithGroups d A groups = .ok d' →
      ∀ g ∈ groups,
        (g.filter (fun f => factTruth d' f = some true)).card ≤ 1 ∧
        ((∃ x ∈ g, factTruth d' x = some true) →
          ∀ f ∈ g, factTruth d' f ≠ some true → factTruth d' f = some false)) ∧
    (∀ d A groups,
      (∃ g ∈ groups,
        2 ≤ (g.filter (fun f => factTruth (updateTruth d A) f = some true)).card) →
      ∃ e, updateTruthWithGroups d A groups = .error e) ∧
    ((updateTruthWithGroups (constructDag rulesEx3) AEx3 groupsEx3).map
        (fun d' => (factTruth d' "A", factTruth d' "B", factTruth d' "C",
          factTruth d' "F", factTruth d' "S", factTruth d' "D"))
      = .ok (some true, some false, some false, none, some true, none)) := by
  refine ⟨?_, ?_, ?_⟩
  · intro d A groups d' h g hg
    have hok := utwgGo_ok (d.verts.card + 2) A d' h
    exact ⟨hok.2.1 g hg, hok.2.2 g hg⟩
  · intro d A groups hcontra
    refine ⟨"Only one fact from each exclusive group can be true.", ?_⟩
    show utwgGo d groups (d.verts.card + 1 + 1) A = _
    unfold utwgGo
    rw [if_pos hcontra]
  · rfl

theorem agetB_append (m old : List (String × Bool)) (f : String) :
    agetB (m ++ old) f = mergedGet m old f := by
  induction m with
  | nil => simp [agetB, mergedGet]
  | cons p m ih =>
    by_cases hp : p.1 = f
    · simp [agetB, mergedGet, List.find?_cons_of_pos, hp]
    · have h1 : agetB ((p :: m) ++ old) f = agetB (m ++ old) f := by
        simp only [agetB, List.cons_append]
        rw [List.find?_cons_of_neg]
        simp [hp]
      have h2 : agetB (p :: m) f = agetB m f := by
        simp only [agetB]
        rw [List.find?_cons_of_neg]
        simp [hp]
      rw [h1, ih]
      unfold mergedGet
      rw [h2]

/-- C9: a successful `GoalTree.set` returns a new snapshot with the same
rules and exclusive groups, whose assertion list is the merge of the old
assertions with the new ones, the new value winning for any fact present in
both; the original snapshot is untouched (`set` is a pure function of it). -/
theorem goalTree_set_merges (gt : GoalTree) (m : List (String × Bool))
    (gt' : GoalTree) (h : gt.set m = .ok gt') :
    gt'.rules = gt.rules ∧
    gt'.exclusiveGroups = gt.exclusiveGroups ∧
    gt'.assertions = m ++ gt.assertions ∧
    (∀ f, agetB gt'.assertions f = mergedGet m gt.assertions f) := by
  unfold GoalTree.set mkGoalTree at h
  cases hu : updateTruthWithGroups ((some gt.dag).getD (constructDag gt.rules))
      (agetB (m ++ gt.assertions)) gt.exclusiveGroups with
  | error e =>
    rw [hu] at h
    exact absurd h (by simp)
  | ok d =>
    rw [hu] at h
    simp only [Except.ok.injEq] at h
    subst h
    refine ⟨rfl, rfl, rfl, ?_⟩
    intro f
    exact agetB_append m gt.assertions f

theorem goalTree_set_merges_witness :
    gtEx9.set mEx9 = .ok gtEx9b ∧
    gtEx9b.assertions = mEx9 ++ gtEx9.assertions :=
  ⟨rfl, (goalTree_set_merges gtEx9 mEx9 gtEx9b rfl).2.2.1⟩

theorem verts_card_of_skel {d1 d2 : DAG} {rank : Ident → Nat}
    (h1 : WF d1 rank) (h2 : WF d2 rank) (hs : skel d1 = skel d2) :
    d1.verts.card = d2.verts.card := by
  have hI : d1.verts.image GTNode.ident = d2.verts.image GTNode.ident :=
    congrArg Prod.fst hs
  calc d1.verts.card = (d1.verts.image GTNode.ident).card :=
        (Finset.card_image_of_injOn h1.identInjOn).symm
    _ = (d2.verts.image GTNode.ident).card := by rw [hI]
    _ = d2.verts.card := Finset.card_image_of_injOn h2.identInjOn

theorem utwgGo_skel_det {d1 d2 : DAG} {rank : Ident → Nat}
    (h1 : WF d1 rank) (h2 : WF d2 rank) (hs : skel d1 = skel d2)
    (groups : List (Finset String)) :
    ∀ n A, utwgGo d1 groups n A = utwgGo d2 groups n A := by
  intro n
  induction n with
  | zero => intro A; rfl
  | succ n ih =>
    intro A
    have hu : updateTruth d1 A = updateTruth d2 A :=
      updateTruth_skel_det h1 h2 hs A
    simp only [utwgGo, hu]
    rw [ih]

theorem updateTruthWithGroups_skel_det {d1 d2 : DAG} {rank : Ident → Nat}
    (h1 : WF d1 rank) (h2 : WF d2 rank) (hs : skel d1 = skel d2)
    (A : String → T3) (groups : List (Finset String)) :
    updateTruthWithGroups d1 A groups = updateTruthWithGroups d2 A groups := by
  unfold updateTruthWithGroups
  rw [verts_card_of_skel h1 h2 hs]
  exact utwgGo_skel_det h1 h2 hs groups _ A

/-- C10: for a snapshot built from an acyclic rule table, `set` — which
reuses the snapshot's already-evaluated DAG as the skeleton — produces
exactly the `GoalTree` a from-scratch construction over the same rules,
groups, and merged assertions produces, in particular a structurally equal
DAG. -/
theorem goalTree_set_refines (rules : List (String × List (Finset String)))
    (groups : List (Finset String)) (asserts : List (String × Bool))
    (m : List (String × Bool)) (rank : Ident → Nat)
    (hwf : WF (constructDag rules) rank) (gt : GoalTree)
    (hgt : mkGoalTree rules groups asserts none = .ok gt) :
    gt.set m = mkGoalTree rules groups (m ++ asserts) none ∧
    (∀ gt1 gt2, gt.set m = .ok gt1 →
      mkGoalTree rules groups (m ++ asserts) none = .ok gt2 →
      structEq gt1.dag gt2.dag) := by
  unfold mkGoalTree at hgt
  rw [Option.getD_none] at hgt
  cases hu : updateTruthWithGroups (constructDag rules) (agetB asserts) groups with
  | error e =>
    rw [hu] at hgt
    exact absurd hgt (by simp)
  | ok d0 =>
    rw [hu] at hgt
    simp only [Except.ok.injEq] at hgt
    subst hgt
    obtain ⟨A2, hA2⟩ : ∃ A2, d0 = updateTruth (constructDag rules) A2 :=
      (utwgGo_ok ((constructDag rules).verts.card + 2) (agetB asserts) d0 hu).1
    have hwf0 : WF (updateTruth (constructDag rules) A2) rank := hwf.updateTruth A2
    have hwfp : WF (updatePruned d0) rank := by
      rw [hA2]
      exact hwf0.updatePruned
    have hskel : skel (updatePruned d0) = skel (constructDag rules) := by
      rw [hA2, skel_updatePruned hwf0, skel_updateTruth hwf A2]
    have hmain : GoalTree.set ⟨rules, groups, asserts, updatePruned d0⟩ m
        = mkGoalTree rules groups (m ++ asserts) none := by
      show mkGoalTree rules groups (m ++ asserts) (some (updatePruned d0))
          = mkGoalTree rules groups (m ++ asserts) none
      unfold mkGoalTree
      rw [Option.getD_none, Option.getD_some]
      rw [updateTruthWithGroups_skel_det hwfp hwf hskel]
    refine ⟨hmain, ?_⟩
    intro gt1 gt2 hs1 hs2
    rw [hmain, hs2] at hs1
    have : gt2 = gt1 := Except.ok.inj hs1
    subst this
    exact ⟨rfl, fun _ _ => rfl⟩

theorem goalTree_set_refines_witness :
    WF (constructDag rulesEx9) rankEx9 ∧
    mkGoalTree rulesEx9 [] [] none = .ok gtEx9 ∧
    gtEx9.set mEx9 = mkGoalTree rulesEx9 [] (mEx9 ++ []) none :=
  ⟨by decide, rfl,
    (goalTree_set_refines rulesEx9 [] [] mEx9 rankEx9 (by decide) gtEx9 rfl).1⟩

theorem updateTruthWithGroups_exclusive_witness :
    ((∃ g ∈ groupsEx5,
        2 ≤ (g.filter
          (fun f => factTruth (updateTruth dEx5 AEx5) f = some true)).card) ∧
      (∃ e, updateTruthWithGroups dEx5 AEx5 groupsEx5 = .error e)) ∧
    (updateTruthWithGroups (constructDag rulesEx3) AEx3 groupsEx3 = .ok dRes3 ∧
      ∀ g ∈ groupsEx3,
        (g.filter (fun f => factTruth dRes3 f = some true)).card ≤ 1) := by
  constructor
  · exact ⟨by decide,
      updateTruthWithGroups_exclusive.2.1 dEx5 AEx5 groupsEx5 (by decide)⟩
  · refine ⟨rfl, ?_⟩
    intro g hg
    exact (updateTruthWithGroups_exclusive.1 (constructDag rulesEx3) AEx3
      groupsEx3 dRes3 rfl g hg).1
